import Mathlib

/-!
Verification of the ImageFeeder ordering/forwarding pipeline.

This file gives a shallow embedding of the core of `eyes_watcher.py` and
`watchdir.py`: the growable sparse cache (`_GrowingList`), the per-directory
ordering/forwarding loop (`WindowMatchingEventHandler._process` and `._stop`),
the sequence-index extraction (`re.search` for a digit run in the base name),
the concurrency gate (`_CONCURRENT_TEST_QUEUE`, a bounded `Queue.Queue`),
the file mover (`watchdir._mv_f`) and the terminal-directory relocation
(`watchdir._watch` together with `WindowMatchingEventHandler.__exit__`).
Theorems about these definitions settle the behavioural claims.
-/

namespace ImageFeeder

/-! ## Path and index-extraction utilities -/

/-- Characters after the last separator in a character list: scanning left to
right, a separator resets the accumulated segment. -/
def lastSegment (l : List Char) : List Char :=
  l.foldl (fun acc c => if c = '/' then [] else acc.concat c) []

/-- Model of `os.path.basename`: the part of the path after the last
separator (`/`). -/
def basename (p : String) : String :=
  String.mk (lastSegment p.toList)

/-- The first maximal run of decimal digits in a character list, scanning left
to right; models `re.search` with the digit-run pattern on the base name in
`WindowMatchingEventHandler._process` (eyes_watcher.py line 91). -/
def firstDigitRun : List Char → Option (List Char)
  | [] => none
  | c :: cs => if c.isDigit then some (c :: cs.takeWhile Char.isDigit)
               else firstDigitRun cs

/-- Model of Python `int()` on a digit string: base 10, unsigned, arbitrary
precision. -/
def digitsToNat (l : List Char) : Nat :=
  l.foldl (fun n c => 10 * n + (c.toNat - 48)) 0

/-- Sequence-index extraction from a base name: the first maximal digit run,
read as a base-10 natural number (eyes_watcher.py lines 91 and 94). -/
def extractIndex (s : String) : Option Nat :=
  (firstDigitRun s.toList).map digitsToNat

/-! ## The growable sparse cache (`_GrowingList`) -/

/-- Model of `_GrowingList.__setitem__` (eyes_watcher.py lines 37-49): if the
index is out of bounds the list is first extended with `none` fillers so that
the index is the last position, then the element at the index is set. -/
def growSet {α : Type} (l : List (Option α)) (i : Nat) (v : Option α) :
    List (Option α) :=
  let l' := if l.length ≤ i then l ++ List.replicate (i + 1 - l.length) none
            else l
  l'.set i v

/-! ## The ordering/forwarding engine (`_process` and `_stop`) -/

/-- State of one `WindowMatchingEventHandler`: the cursor `_next_index` and the
sparse path cache `_path_cache`. -/
structure HandlerState where
  nextIndex : Nat
  pathCache : List (Option String)
deriving Repr, DecidableEq

/-- Helper for the inner forwarding loop of `_process`: walk the cache slice
that starts at the cursor position `i`, stopping at the first falsy slot
(`None` or an empty string) or at the end of the slice, and collect the
forwarded (index, path) pairs. The cache is not mutated during the loop, so
walking the suffix is the loop's exact behaviour. -/
def forwardFrom : List (Option String) → Nat → Nat × List (Nat × String)
  | [], i => (i, [])
  | slot :: rest, i =>
    match slot with
    | some p =>
      if p = "" then (i, [])
      else
        let r := forwardFrom rest (i + 1)
        (r.1, (i, p) :: r.2)
    | none => (i, [])

/-- The inner forwarding loop of `_process` (eyes_watcher.py lines 102-110):
while the slot at the cursor is truthy (present and a nonempty string),
forward it to the sink and advance the cursor; a missing slot (`None`) or a
position past the end of the cache (Python `IndexError`) ends the loop.
Returns the new cursor and the forwarded (index, path) pairs in order. -/
def forwardLoop (cache : List (Option String)) (next : Nat) :
    Nat × List (Nat × String) :=
  forwardFrom (cache.drop next) next

/-- One submission step of `_process` on a non-sentinel path
(eyes_watcher.py lines 91-112): extract the index from the base name; no
digit run means the file is dropped; an index below the cursor is dropped as
repeated; otherwise the path is stored at its index (growing the cache) and
the forwarding loop runs from the cursor. Returns the new state and the
(index, path) pairs forwarded to the sink. -/
def processPath (st : HandlerState) (path : String) :
    HandlerState × List (Nat × String) :=
  match extractIndex (basename path) with
  | none => (st, [])
  | some idx =>
    if idx < st.nextIndex then (st, [])
    else
      let cache := growSet st.pathCache idx (some path)
      let r := forwardLoop cache st.nextIndex
      (⟨r.1, cache⟩, r.2)

/-- Result of feeding a list of dequeued paths to `_process`: final handler
state, the (index, path) pairs forwarded during submission, and whether the
sentinel stopped the loop. -/
structure RunResult where
  finalState : HandlerState
  submitted : List (Nat × String)
  stopped : Bool
deriving Repr, DecidableEq

/-- The consumer loop of `_process` (eyes_watcher.py lines 85-114) over a
finite backlog: each dequeued path whose base name equals the sentinel name
triggers `_stop` and breaks; every other path goes through one submission
step. -/
def processList (doneName : String) : HandlerState → List String → RunResult
  | st, [] => ⟨st, [], false⟩
  | st, p :: ps =>
    if basename p = doneName then ⟨st, [], true⟩
    else
      let r := processPath st p
      let rest := processList doneName r.1 ps
      ⟨rest.finalState, r.2 ++ rest.submitted, rest.stopped⟩

/-- The flush iteration of `_stop` (eyes_watcher.py lines 120-122) over the
slice of the cache starting at position `i`: every truthy slot is forwarded,
falsy slots (`None` or an empty string) are skipped. -/
def flushSlots : List (Option String) → Nat → List (Nat × String)
  | [], _ => []
  | slot :: rest, i =>
    match slot with
    | some p => if p = "" then flushSlots rest (i + 1)
                else (i, p) :: flushSlots rest (i + 1)
    | none => flushSlots rest (i + 1)

/-- The end-of-session flush of `_stop`: iterate over `_path_cache` from
`_next_index` to the end, forwarding every remaining truthy slot. -/
def flushTrace (st : HandlerState) : List (Nat × String) :=
  flushSlots (st.pathCache.drop st.nextIndex) st.nextIndex

/-- A whole session at the ordering-buffer level: submission-time forwarding
followed, when the sentinel arrived, by the `_stop` flush. -/
structure SessionTrace where
  finalState : HandlerState
  submitted : List (Nat × String)
  flushed : List (Nat × String)
  stopped : Bool
deriving Repr, DecidableEq

/-- Run one session: process the backlog from an empty cache seeded at the
configured base index; if the sentinel stopped the loop, the remaining cache
is flushed (eyes_watcher.py lines 85-127). -/
def sessionRun (doneName : String) (base : Nat) (paths : List String) :
    SessionTrace :=
  let r := processList doneName ⟨base, []⟩ paths
  ⟨r.finalState, r.submitted,
    if r.stopped then flushTrace r.finalState else [], r.stopped⟩

/-! ## Lemmas about `growSet` (`_GrowingList.__setitem__`) -/

theorem growSet_length {α : Type} (l : List (Option α)) (i : Nat) (v : Option α) :
    (growSet l i v).length = max l.length (i + 1) := by
  simp only [growSet]
  split <;> simp_all <;> omega

theorem growSet_getElem_self {α : Type} (l : List (Option α)) (i : Nat)
    (v : Option α) : (growSet l i v)[i]? = some v := by
  simp only [growSet]
  split
  · rw [List.getElem?_set]
    simp_all
    omega
  · rw [List.getElem?_set]
    simp_all

theorem growSet_getElem_old {α : Type} (l : List (Option α)) (i j : Nat)
    (v : Option α) (hne : j ≠ i) (hj : j < l.length) :
    (growSet l i v)[j]? = l[j]? := by
  simp only [growSet]
  rw [List.getElem?_set_ne (fun h => hne h.symm)]
  split
  · rw [List.getElem?_append]
    simp [hj]
  · rfl

theorem growSet_getElem_new {α : Type} (l : List (Option α)) (i j : Nat)
    (v : Option α) (hne : j ≠ i) (hlo : l.length ≤ j) (hhi : j ≤ i) :
    (growSet l i v)[j]? = some none := by
  have hli : l.length ≤ i := le_trans hlo hhi
  simp only [growSet, if_pos hli]
  rw [List.getElem?_set_ne (fun h => hne h.symm)]
  rw [List.getElem?_append_right hlo, List.getElem?_replicate]
  have : j - l.length < i + 1 - l.length := by omega
  simp [this]

/-- C10: for every growable index list, every index `i` and every value `v`,
setting index `i` to `v` with `_GrowingList.__setitem__` makes the length the
maximum of the old length and `i + 1`, puts `v` at position `i`, fills every
newly created position other than `i` with `None`, and leaves every
previously existing position other than `i` unchanged. -/
theorem growing_list_setitem_spec {α : Type} (l : List (Option α)) (i : Nat)
    (v : Option α) :
    (growSet l i v).length = max l.length (i + 1) ∧
    (growSet l i v)[i]? = some v ∧
    (∀ j, j ≠ i → j < l.length → (growSet l i v)[j]? = l[j]?) ∧
    (∀ j, j ≠ i → l.length ≤ j → j ≤ i → (growSet l i v)[j]? = some none) :=
  ⟨growSet_length l i v, growSet_getElem_self l i v,
   fun j hne hj => growSet_getElem_old l i j v hne hj,
   fun j hne hlo hhi => growSet_getElem_new l i j v hne hlo hhi⟩

/-- Witness for C10 at a concrete input: setting index 3 in a two-element
list. -/
theorem growing_list_setitem_spec_witness :
    (growSet [some 7, none] 3 (some 5)).length = max 2 4 ∧
    (growSet [some 7, none] 3 (some 5))[3]? = some (some 5) ∧
    (growSet [some 7, none] 3 (some 5))[0]? = [some 7, none][0]? ∧
    (growSet ([some 7, none] : List (Option Nat)) 3 (some 5))[2]? =
      some none := by
  obtain ⟨h1, h2, h3, h4⟩ :=
    growing_list_setitem_spec ([some 7, none] : List (Option Nat)) 3 (some 5)
  exact ⟨h1, h2, h3 0 (by decide) (by decide), h4 2 (by decide) (by decide)
    (by decide)⟩

/-! ## Lemmas about digit-run extraction -/

theorem firstDigitRun_eq_none_iff (l : List Char) :
    firstDigitRun l = none ↔ ∀ c ∈ l, ¬c.isDigit := by
  induction l with
  | nil => simp [firstDigitRun]
  | cons c cs ih =>
    by_cases hc : c.isDigit
    · simp [firstDigitRun, hc]
    · simp [firstDigitRun, hc, ih]

theorem takeWhile_all_append {α : Type} (p : α → Bool) (l₁ l₂ : List α)
    (h : ∀ c ∈ l₁, p c) :
    List.takeWhile p (l₁ ++ l₂) = l₁ ++ List.takeWhile p l₂ := by
  induction l₁ with
  | nil => simp
  | cons a l ih =>
    have ha : p a := h a (List.mem_cons_self a l)
    simp only [List.cons_append, List.takeWhile_cons, ha, if_true]
    rw [ih (fun c hc => h c (List.mem_cons_of_mem a hc))]

theorem takeWhile_head_not (p : α → Bool) (l : List α)
    (h : ∀ c, l.head? = some c → ¬p c) : List.takeWhile p l = [] := by
  cases l with
  | nil => rfl
  | cons a l =>
    have : ¬p a := h a rfl
    simp [List.takeWhile_cons, this]

theorem firstDigitRun_spec (pre run post : List Char)
    (hpre : ∀ c ∈ pre, ¬c.isDigit) (hne : run ≠ [])
    (hrun : ∀ c ∈ run, c.isDigit)
    (hpost : ∀ c, post.head? = some c → ¬c.isDigit) :
    firstDigitRun (pre ++ run ++ post) = some run := by
  induction pre with
  | nil =>
    cases run with
    | nil => exact absurd rfl hne
    | cons r rs =>
      have hr : r.isDigit := hrun r (List.mem_cons_self r rs)
      simp only [List.nil_append, List.cons_append, List.append_eq,
        firstDigitRun, hr, if_true]
      rw [takeWhile_all_append _ rs post
            (fun c hc => hrun c (List.mem_cons_of_mem r hc)),
          takeWhile_head_not _ post hpost, List.append_nil]
  | cons a pre ih =>
    have ha : ¬a.isDigit := hpre a (List.mem_cons_self a pre)
    simp only [List.cons_append, firstDigitRun, ha, Bool.false_eq_true,
      if_false]
    exact ih (fun c hc => hpre c (List.mem_cons_of_mem a hc))

/-- C9: `submit` extracts as sequence index the first maximal run of decimal
digits found anywhere in the file's base name, read as an unsigned base-10
integer of no fixed width; a base name with no digit is dropped with a
warning: never buffered, never forwarded, cursor and cache unchanged. -/
theorem index_extraction_first_digit_run :
    (∀ pre run post : List Char, (∀ c ∈ pre, ¬c.isDigit) → run ≠ [] →
      (∀ c ∈ run, c.isDigit) → (∀ c, post.head? = some c → ¬c.isDigit) →
      firstDigitRun (pre ++ run ++ post) = some run) ∧
    (∀ l : List Char, firstDigitRun l = none ↔ ∀ c ∈ l, ¬c.isDigit) ∧
    (∀ st p, extractIndex (basename p) = none → processPath st p = (st, [])) ∧
    extractIndex "ab007x12" = some 7 ∧ extractIndex "nodigits.png" = none := by
  refine ⟨firstDigitRun_spec, firstDigitRun_eq_none_iff, ?_, by decide,
    by decide⟩
  intro st p h
  simp [processPath, h]

/-- Witness for C9 at concrete inputs: the digit run 42 inside a name, and a
digit-free base name leaving the handler state unchanged. -/
theorem index_extraction_first_digit_run_witness :
    firstDigitRun (['x'] ++ ['4', '2'] ++ ['y', '7']) = some ['4', '2'] ∧
    (firstDigitRun ['x', 'y'] = none ↔ ∀ c ∈ ['x', 'y'], ¬c.isDigit) ∧
    processPath ⟨0, []⟩ "nodigits.png" = (⟨0, []⟩, []) := by
  refine ⟨index_extraction_first_digit_run.1 ['x'] ['4', '2'] ['y', '7']
      (by decide) (by decide) (by decide) (by decide),
    index_extraction_first_digit_run.2.1 ['x', 'y'],
    index_extraction_first_digit_run.2.2.1 ⟨0, []⟩ "nodigits.png"
      (by decide)⟩

/-! ## Lemmas about the forwarding loop and the flush -/

theorem forwardFrom_spec :
    ∀ (l : List (Option String)) (i : Nat),
    i ≤ (forwardFrom l i).1 ∧
    (forwardFrom l i).2.map Prod.fst =
      List.range' i ((forwardFrom l i).1 - i) ∧
    (∀ j p, (j, p) ∈ (forwardFrom l i).2 →
      i ≤ j ∧ l[j - i]? = some (some p) ∧ p ≠ "")
  | [], i => by simp [forwardFrom]
  | slot :: rest, i => by
    cases slot with
    | none => simp [forwardFrom]
    | some p =>
      by_cases hp : p = ""
      · simp [forwardFrom, hp]
      · have ih := forwardFrom_spec rest (i + 1)
        obtain ⟨ih1, ih2, ih3⟩ := ih
        simp only [forwardFrom, if_neg hp]
        refine ⟨by omega, ?_, ?_⟩
        · simp only [List.map_cons, ih2]
          have hsucc : (forwardFrom rest (i + 1)).1 - i =
              ((forwardFrom rest (i + 1)).1 - (i + 1)) + 1 := by omega
          rw [hsucc, List.range'_succ]
        · intro j q hmem
          rcases List.mem_cons.mp hmem with heq | htail
          · rw [Prod.mk.injEq] at heq
            obtain ⟨rfl, rfl⟩ := heq
            exact ⟨le_refl _, by simp, hp⟩
          · obtain ⟨hle, hget, hq⟩ := ih3 j q htail
            refine ⟨by omega, ?_, hq⟩
            have hji : j - i = (j - (i + 1)) + 1 := by omega
            rw [hji]
            simpa using hget

theorem forwardLoop_spec (cache : List (Option String)) (next : Nat) :
    next ≤ (forwardLoop cache next).1 ∧
    (forwardLoop cache next).2.map Prod.fst =
      List.range' next ((forwardLoop cache next).1 - next) ∧
    (∀ j p, (j, p) ∈ (forwardLoop cache next).2 →
      cache[j]? = some (some p) ∧ p ≠ "") := by
  obtain ⟨h1, h2, h3⟩ := forwardFrom_spec (cache.drop next) next
  refine ⟨h1, h2, ?_⟩
  intro j q hmem
  obtain ⟨hle, hget, hq⟩ := h3 j q hmem
  rw [List.getElem?_drop] at hget
  have : next + (j - next) = j := by omega
  rw [this] at hget
  exact ⟨hget, hq⟩

theorem flushSlots_mem :
    ∀ (l : List (Option String)) (i j : Nat) (p : String),
    ((j, p) ∈ flushSlots l i ↔
      ∃ k, l[k]? = some (some p) ∧ p ≠ "" ∧ j = i + k)
  | [], i, j, p => by simp [flushSlots]
  | slot :: rest, i, j, p => by
    have ih := flushSlots_mem rest (i + 1) j p
    have shift : (∃ k, rest[k]? = some (some p) ∧ p ≠ "" ∧ j = (i + 1) + k) ↔
        (∃ k, 0 < k ∧ (slot :: rest)[k]? = some (some p) ∧ p ≠ "" ∧
          j = i + k) := by
      constructor
      · rintro ⟨k, hk, hp, hj⟩
        exact ⟨k + 1, by omega, by simpa using hk, hp, by omega⟩
      · rintro ⟨k, hpos, hk, hp, hj⟩
        obtain ⟨k', rfl⟩ := Nat.exists_eq_add_of_lt hpos
        refine ⟨k', by simpa [Nat.add_comm] using hk, hp, by omega⟩
    have drop0 : ∀ hslot : slot = none ∨ slot = some "",
        ((j, p) ∈ flushSlots (slot :: rest) i ↔
          ∃ k, (slot :: rest)[k]? = some (some p) ∧ p ≠ "" ∧ j = i + k) := by
      intro hslot
      have hstep : flushSlots (slot :: rest) i = flushSlots rest (i + 1) := by
        rcases hslot with rfl | rfl <;> simp [flushSlots]
      rw [hstep, ih, shift]
      constructor
      · rintro ⟨k, _, hk, hp, hj⟩
        exact ⟨k, hk, hp, hj⟩
      · rintro ⟨k, hk, hp, hj⟩
        have hpos : 0 < k := by
          rcases Nat.eq_zero_or_pos k with rfl | hpos
          · rcases hslot with rfl | rfl
            · simp at hk
            · simp at hk
              exact absurd hk.symm hp
          · exact hpos
        exact ⟨k, hpos, hk, hp, hj⟩
    cases slot with
    | none => exact drop0 (Or.inl rfl)
    | some q =>
      by_cases hq : q = ""
      · subst hq
        exact drop0 (Or.inr rfl)
      · have hstep : flushSlots (some q :: rest) i =
            (i, q) :: flushSlots rest (i + 1) := by
          simp [flushSlots, hq]
        rw [hstep, List.mem_cons, ih, shift]
        constructor
        · rintro (heq | ⟨k, _, hk, hp, hj⟩)
          · rw [Prod.mk.injEq] at heq
            obtain ⟨rfl, rfl⟩ := heq
            exact ⟨0, by simp, hq, by omega⟩
          · exact ⟨k, hk, hp, hj⟩
        · rintro ⟨k, hk, hp, hj⟩
          rcases Nat.eq_zero_or_pos k with rfl | hpos
          · simp only [List.getElem?_cons_zero, Option.some.injEq,
              Option.some.injEq] at hk
            left
            rw [Prod.mk.injEq]
            exact ⟨by omega, hk.symm⟩
          · exact Or.inr ⟨k, hpos, hk, hp, hj⟩

theorem flushSlots_fst_ge (l : List (Option String)) (i j : Nat) (p : String)
    (h : (j, p) ∈ flushSlots l i) : i ≤ j := by
  obtain ⟨k, _, _, hj⟩ := (flushSlots_mem l i j p).mp h
  omega

theorem flushSlots_pairwise (l : List (Option String)) :
    ∀ i, ((flushSlots l i).map Prod.fst).Pairwise (· < ·) := by
  induction l with
  | nil => intro i; simp [flushSlots]
  | cons slot rest ih =>
    intro i
    cases slot with
    | none => simpa only [flushSlots] using ih (i + 1)
    | some q =>
      by_cases hq : q = ""
      · subst hq
        simpa only [flushSlots, if_pos rfl] using ih (i + 1)
      · simp only [flushSlots, if_neg hq, List.map_cons]
        refine List.Pairwise.cons ?_ (ih (i + 1))
        intro x hx
        obtain ⟨⟨j, p⟩, hmem, rfl⟩ := List.mem_map.mp hx
        have := flushSlots_fst_ge rest (i + 1) j p hmem
        omega

theorem flushTrace_mem (st : HandlerState) (j : Nat) (p : String) :
    (j, p) ∈ flushTrace st ↔
      st.nextIndex ≤ j ∧ st.pathCache[j]? = some (some p) ∧ p ≠ "" := by
  rw [flushTrace, flushSlots_mem]
  constructor
  · rintro ⟨k, hk, hp, rfl⟩
    rw [List.getElem?_drop] at hk
    exact ⟨Nat.le_add_right _ _, hk, hp⟩
  · rintro ⟨hle, hj, hp⟩
    refine ⟨j - st.nextIndex, ?_, hp, by omega⟩
    rw [List.getElem?_drop]
    have : st.nextIndex + (j - st.nextIndex) = j := by omega
    rw [this]
    exact hj

theorem flushTrace_pairwise (st : HandlerState) :
    ((flushTrace st).map Prod.fst).Pairwise (· < ·) :=
  flushSlots_pairwise _ _

/-! ## Lemmas about submission processing -/

theorem processPath_spec (st : HandlerState) (p : String) :
    st.nextIndex ≤ (processPath st p).1.nextIndex ∧
    (processPath st p).2.map Prod.fst =
      List.range' st.nextIndex
        ((processPath st p).1.nextIndex - st.nextIndex) := by
  unfold processPath
  cases h : extractIndex (basename p) with
  | none => simp
  | some idx =>
    by_cases hlt : idx < st.nextIndex
    · simp [hlt]
    · have hfl := forwardLoop_spec (growSet st.pathCache idx (some p))
        st.nextIndex
      simp only [hlt, if_false]
      exact ⟨hfl.1, hfl.2.1⟩

theorem processList_range (doneName : String) :
    ∀ (ps : List String) (st : HandlerState),
    st.nextIndex ≤ (processList doneName st ps).finalState.nextIndex ∧
    (processList doneName st ps).submitted.map Prod.fst =
      List.range' st.nextIndex
        ((processList doneName st ps).finalState.nextIndex - st.nextIndex)
  | [], st => by simp [processList]
  | p :: ps, st => by
    by_cases hd : basename p = doneName
    · simp [processList, hd]
    · have h1 := processPath_spec st p
      have h2 := processList_range doneName ps (processPath st p).1
      simp only [processList, if_neg hd]
      set a := st.nextIndex with ha
      set m := (processPath st p).1.nextIndex with hm
      set c :=
        (processList doneName (processPath st p).1 ps).finalState.nextIndex
        with hc
      refine ⟨le_trans h1.1 h2.1, ?_⟩
      rw [List.map_append, h1.2, h2.2]
      have happ := List.range'_append a (m - a) (c - m) 1
      have e1 : a + 1 * (m - a) = m := by omega
      have e2 : c - m + (m - a) = c - a := by omega
      rw [e1, e2] at happ
      exact happ

/-- C1: within one session, the indices forwarded during submission form a
contiguous strictly ascending run starting at the configured base (each
forwarded index is the cursor at the moment of forwarding, and the cursor
ends at base plus the number of submission-time forwards); every index the
end-of-session flush forwards is at or above the final cursor; and counting
both submission-time forwarding and the flush, no index reaches the sink more
than once. -/
theorem forwarding_strictly_ascending_no_repeat (doneName : String) (b : Nat)
    (paths : List String) :
    (∃ k, (sessionRun doneName b paths).submitted.map Prod.fst =
        List.range' b k ∧
      (sessionRun doneName b paths).finalState.nextIndex = b + k) ∧
    (∀ jp ∈ (sessionRun doneName b paths).flushed,
      (sessionRun doneName b paths).finalState.nextIndex ≤ jp.1) ∧
    (((sessionRun doneName b paths).submitted ++
        (sessionRun doneName b paths).flushed).map Prod.fst).Nodup := by
  have hrun := processList_range doneName paths ⟨b, []⟩
  set r := processList doneName ⟨b, []⟩ paths with hr
  have hsub : (sessionRun doneName b paths).submitted = r.submitted := rfl
  have hfin : (sessionRun doneName b paths).finalState = r.finalState := rfl
  have hfl : (sessionRun doneName b paths).flushed =
      if r.stopped then flushTrace r.finalState else [] := rfl
  have hb : (⟨b, []⟩ : HandlerState).nextIndex = b := rfl
  rw [hb] at hrun
  have hflbound : ∀ jp ∈ (sessionRun doneName b paths).flushed,
      r.finalState.nextIndex ≤ jp.1 := by
    intro jp hjp
    rw [hfl] at hjp
    by_cases hstop : r.stopped
    · rw [if_pos hstop] at hjp
      obtain ⟨j, p⟩ := jp
      exact ((flushTrace_mem r.finalState j p).mp hjp).1
    · rw [if_neg hstop] at hjp
      exact absurd hjp (List.not_mem_nil _)
  refine ⟨⟨r.finalState.nextIndex - b, by rw [hsub, hrun.2],
      by rw [hfin]; have := hrun.1; omega⟩,
    by rw [hfin]; exact hflbound, ?_⟩
  rw [List.map_append]
  refine List.Nodup.append ?_ ?_ ?_
  · rw [hsub, hrun.2]
    exact List.nodup_range' b _
  · rw [hfl]
    by_cases hstop : r.stopped
    · rw [if_pos hstop]
      exact ((flushTrace_pairwise r.finalState).imp fun h => Nat.ne_of_lt h)
    · rw [if_neg hstop]
      exact List.nodup_nil
  · intro x hx hx'
    rw [hsub, hrun.2] at hx
    have hxlt : x < r.finalState.nextIndex :=
      ((List.mem_range'_1).mp hx).2.trans_le (by omega)
    obtain ⟨⟨j, p⟩, hmem, rfl⟩ := List.mem_map.mp hx'
    have := hflbound ⟨j, p⟩ hmem
    simp only at this hxlt
    omega

/-- Witness for C1 at a concrete input: in the 5,6,7 run the final cursor
bounds the flushed index 5. -/
theorem forwarding_strictly_ascending_no_repeat_witness :
    (sessionRun "done" 0
      ["5.png", "6.png", "7.png", "done"]).finalState.nextIndex ≤ 5 :=
  (forwarding_strictly_ascending_no_repeat "done" 0
    ["5.png", "6.png", "7.png", "done"]).2.1 (5, "5.png") (by decide)

/-- C5: the end-of-session flush forwards exactly the occupied slots from the
cursor upward, in ascending index order, skipping unoccupied slots; in
particular submitting only 5, 6 and 7 with base 0 delivers nothing before
the flush, and the flush delivers 5, 6, 7 in that order. -/
theorem flush_forwards_occupied_ascending :
    (∀ (st : HandlerState) (j : Nat) (p : String),
      (j, p) ∈ flushTrace st ↔
        st.nextIndex ≤ j ∧ st.pathCache[j]? = some (some p) ∧ p ≠ "") ∧
    (∀ st : HandlerState, ((flushTrace st).map Prod.fst).Pairwise (· < ·)) ∧
    (sessionRun "done" 0 ["5.png", "6.png", "7.png"]).submitted = [] ∧
    (sessionRun "done" 0 ["5.png", "6.png", "7.png"]).flushed = [] ∧
    (sessionRun "done" 0 ["5.png", "6.png", "7.png", "done"]).submitted
      = [] ∧
    (sessionRun "done" 0 ["5.png", "6.png", "7.png", "done"]).flushed =
      [(5, "5.png"), (6, "6.png"), (7, "7.png")] :=
  ⟨flushTrace_mem, flushTrace_pairwise, by decide, by decide, by decide,
   by decide⟩

/-- C2, evaluated on the code at the failing input: two submissions carrying
the same index 2 while the cursor is still 0 leave the later path in slot 2
(the first writer's entry is overwritten, contradicting first-writer-wins),
and the flush forwards the later path; a duplicate below the cursor is
dropped, so 2,0,1,0 still delivers 0,1,2. -/
theorem duplicate_index_overwrites :
    (sessionRun "done" 0
        ["a2.png", "b2.png", "done"]).finalState.pathCache[2]? =
      some (some "b2.png") ∧
    (sessionRun "done" 0 ["a2.png", "b2.png", "done"]).flushed =
      [(2, "b2.png")] ∧
    (sessionRun "done" 0
        ["2.png", "0.png", "1.png", "0b.png", "done"]).submitted.map
      Prod.fst = [0, 1, 2] := by
  decide

/-! ## The sentinel is never stored, hence never forwarded -/

theorem growSet_entries {α : Type} (l : List (Option α)) (i : Nat) (v w : α)
    (j : Nat) (h : (growSet l i (some v))[j]? = some (some w)) :
    (j = i ∧ w = v) ∨ l[j]? = some (some w) := by
  by_cases hji : j = i
  · subst hji
    rw [growSet_getElem_self] at h
    simp only [Option.some.injEq] at h
    exact Or.inl ⟨rfl, h.symm⟩
  · by_cases hlt : j < l.length
    · rw [growSet_getElem_old _ _ _ _ hji hlt] at h
      exact Or.inr h
    · push_neg at hlt
      by_cases hle : j ≤ i
      · rw [growSet_getElem_new _ _ _ _ hji hlt hle] at h
        simp at h
      · have hout : (growSet l i (some v)).length ≤ j := by
          rw [growSet_length]
          omega
        rw [List.getElem?_eq_none hout] at h
        exact Option.noConfusion h

/-- Invariant: no path stored in the cache has the sentinel base name. -/
abbrev goodCache (dn : String) (st : HandlerState) : Prop :=
  ∀ (j : Nat) (q : String),
    st.pathCache[j]? = some (some q) → basename q ≠ dn

theorem processPath_good (dn : String) (st : HandlerState) (p : String)
    (hst : goodCache dn st) (hp : basename p ≠ dn) :
    goodCache dn (processPath st p).1 ∧
    (∀ j q, (j, q) ∈ (processPath st p).2 → basename q ≠ dn) := by
  unfold processPath
  cases h : extractIndex (basename p) with
  | none => exact ⟨hst, by simp⟩
  | some idx =>
    by_cases hlt : idx < st.nextIndex
    · simp only [hlt, if_true]
      exact ⟨hst, by simp⟩
    · simp only [hlt, if_false]
      have hcache : ∀ (j : Nat) (q : String),
          (growSet st.pathCache idx (some p))[j]? = some (some q) →
          basename q ≠ dn := by
        intro j q hj
        rcases growSet_entries _ _ _ _ _ hj with ⟨_, rfl⟩ | hold
        · exact hp
        · exact hst j q hold
      refine ⟨hcache, ?_⟩
      intro j q hmem
      have hfl := (forwardLoop_spec (growSet st.pathCache idx (some p))
        st.nextIndex).2.2 j q hmem
      exact hcache j q hfl.1

theorem processList_good (dn : String) :
    ∀ (ps : List String) (st : HandlerState), goodCache dn st →
    goodCache dn (processList dn st ps).finalState ∧
    (∀ j q, (j, q) ∈ (processList dn st ps).submitted → basename q ≠ dn)
  | [], st, h => by
    refine ⟨?_, by simp [processList]⟩
    simpa [processList] using h
  | p :: ps, st, h => by
    by_cases hd : basename p = dn
    · simp only [processList, if_pos hd]
      exact ⟨h, by simp⟩
    · have hp := processPath_good dn st p h hd
      have ih := processList_good dn ps (processPath st p).1 hp.1
      simp only [processList, if_neg hd]
      refine ⟨ih.1, ?_⟩
      intro j q hmem
      rcases List.mem_append.mp hmem with hm | hm
      · exact hp.2 j q hm
      · exact ih.2 j q hm

/-- C6: a dequeued path whose base name equals the configured sentinel name
triggers the drain (the loop stops, nothing more is submitted, and the stop
flag is set) no matter where under the root it sits and no matter what
digits the rest of its path carries; and the sentinel-named file itself is
never forwarded to the sink, neither during submission nor by the flush. -/
theorem sentinel_stops_never_forwarded :
    (∀ (doneName p : String) (st : HandlerState) (ps : List String),
      basename p = doneName →
      processList doneName st (p :: ps) = ⟨st, [], true⟩) ∧
    (∀ (doneName : String) (b : Nat) (paths : List String) (j : Nat)
      (q : String),
      (j, q) ∈ (sessionRun doneName b paths).submitted ++
        (sessionRun doneName b paths).flushed →
      basename q ≠ doneName) := by
  constructor
  · intro dn p st ps hp
    simp [processList, hp]
  · intro dn b paths j q hmem
    have hgood : goodCache dn (⟨b, []⟩ : HandlerState) := by
      intro j' q' hj'
      simp at hj'
    have h := processList_good dn paths ⟨b, []⟩ hgood
    rcases List.mem_append.mp hmem with hm | hm
    · exact h.2 j q hm
    · have hfl : (sessionRun dn b paths).flushed =
          if (processList dn ⟨b, []⟩ paths).stopped then
            flushTrace (processList dn ⟨b, []⟩ paths).finalState
          else [] := rfl
      rw [hfl] at hm
      by_cases hstop : (processList dn ⟨b, []⟩ paths).stopped
      · rw [if_pos hstop] at hm
        have hmem' := (flushTrace_mem _ j q).mp hm
        exact h.1 j q hmem'.2.1
      · rw [if_neg hstop] at hm
        exact absurd hm (List.not_mem_nil _)

/-- Witness for C6 at concrete inputs: a sentinel in a digit-bearing
subdirectory stops the loop, and the forwarded path of the 0,done run does
not carry the sentinel name. -/
theorem sentinel_stops_never_forwarded_witness :
    processList "done" ⟨0, []⟩ ["sub9/done"] =
      ⟨⟨0, []⟩, [], true⟩ ∧ basename "0.png" ≠ "done" :=
  ⟨sentinel_stops_never_forwarded.1 "done" "sub9/done" ⟨0, []⟩ []
      (by decide),
   sentinel_stops_never_forwarded.2 "done" 0 ["0.png", "done"] 0 "0.png"
      (by decide)⟩

/-! ## The concurrency gate (`_CONCURRENT_TEST_QUEUE`) -/

/-- One interaction with the gate queue: `put` at the start of `_process`
(acquire) or `get` at the end of `_stop` (release). -/
inductive GateEvent
  | acquire
  | release
deriving Repr, DecidableEq, BEq

/-- Semantics of `Queue.Queue(maxsize)` used as a counting gate
(eyes_watcher.py lines 84, 126-127, 277): `put` blocks (is not enabled)
when the capacity is positive and the queue is full; a capacity that is zero
or negative means unlimited, so `put` always proceeds; `get` blocks on an
empty queue. `n` is the number of items currently in the queue, i.e. the
number of slots held. -/
def gateStep (cap : Int) (n : Nat) : GateEvent → Option Nat
  | .acquire => if cap ≤ 0 ∨ (n : Int) < cap then some (n + 1) else none
  | .release => if 0 < n then some (n - 1) else none

/-- States of the gate reachable from the empty queue through enabled
transitions. -/
inductive GateReachable (cap : Int) : Nat → Prop
  | init : GateReachable cap 0
  | step {n : Nat} {e : GateEvent} {n' : Nat} :
      GateReachable cap n → gateStep cap n e = some n' → GateReachable cap n'

/-- C8: with a positive capacity, every reachable gate state holds at most
capacity-many slots (so at most that many sessions are simultaneously past
gate acquisition); a capacity of zero or less never blocks an acquire
(unlimited); and with capacity 1 a second acquire is blocked while one slot
is held and enabled again after the release. -/
theorem concurrency_gate_bound :
    (∀ (cap : Int) (n : Nat), 0 < cap → GateReachable cap n →
      (n : Int) ≤ cap) ∧
    (∀ (cap : Int) (n : Nat), cap ≤ 0 →
      gateStep cap n .acquire = some (n + 1)) ∧
    gateStep 1 1 .acquire = none ∧
    gateStep 1 1 .release = some 0 ∧
    gateStep 1 0 .acquire = some 1 := by
  refine ⟨?_, ?_, by decide, by decide, by decide⟩
  · intro cap n hcap hreach
    induction hreach with
    | init => omega
    | step hprev henab ih =>
      rename_i m e m'
      cases e with
      | acquire =>
        simp only [gateStep] at henab
        by_cases hen : cap ≤ 0 ∨ (m : Int) < cap
        · rw [if_pos hen] at henab
          rcases hen with hen | hen
          · omega
          · obtain rfl : m + 1 = m' := Option.some.inj henab
            push_cast
            omega
        · rw [if_neg hen] at henab
          exact Option.noConfusion henab
      | release =>
        simp only [gateStep] at henab
        by_cases hen : 0 < m
        · rw [if_pos hen] at henab
          obtain rfl : m - 1 = m' := Option.some.inj henab
          omega
        · rw [if_neg hen] at henab
          exact Option.noConfusion henab
  · intro cap n hcap
    simp [gateStep, hcap]

/-- Witness for C8 at concrete inputs: capacity 1 with one held slot (reached
by one acquire) is within the bound, and an unlimited gate admits a sixth
session immediately. -/
theorem concurrency_gate_bound_witness :
    ((1 : Nat) : Int) ≤ (1 : Int) ∧ gateStep 0 5 .acquire = some 6 :=
  ⟨concurrency_gate_bound.1 1 1 (by decide)
      (@GateReachable.step 1 0 GateEvent.acquire 1 GateReachable.init
        (by decide)),
   concurrency_gate_bound.2.1 0 5 (by decide)⟩

/-! ## Exception-aware session run (gate acquire/release accounting)

In `_process` the gate slot is taken by `put` before the consumer loop and
given back by `get` only at the end of `_stop`, after the flush
(eyes_watcher.py lines 84, 126-127). `eyeswrapper.match` swallows only
`HTTPError`; any other exception raised by a sink call propagates, kills the
consumer thread and skips everything after it. The oracle `sink` says
whether the n-th sink call returns normally (`true`, including a swallowed
`HTTPError`) or raises (`false`). -/

/-- How a session's consumer loop ended: the sentinel was processed and the
flush finished (`completed`), a sink call raised and the thread died
(`aborted`), or the backlog ran out without a sentinel and the loop is still
blocked on the queue (`pending`). -/
inductive SessionOutcome
  | completed
  | aborted
  | pending
deriving Repr, DecidableEq

/-- Exception-aware forwarding loop: as `forwardFrom`, but each forwarded
slot costs one sink call, and a raising call aborts the loop (`none`).
Returns the new cursor and call counter. -/
def forwardFromE (sink : Nat → Bool) :
    List (Option String) → Nat → Nat → Option (Nat × Nat)
  | [], i, calls => some (i, calls)
  | slot :: rest, i, calls =>
    match slot with
    | some p =>
      if p = "" then some (i, calls)
      else if sink calls then forwardFromE sink rest (i + 1) (calls + 1)
      else none
    | none => some (i, calls)

/-- Exception-aware submission step: as `processPath`, threading the sink
call counter and propagating an abort from the forwarding loop. -/
def processPathE (sink : Nat → Bool) (st : HandlerState) (calls : Nat)
    (path : String) : Option (HandlerState × Nat) :=
  match extractIndex (basename path) with
  | none => some (st, calls)
  | some idx =>
    if idx < st.nextIndex then some (st, calls)
    else
      let cache := growSet st.pathCache idx (some path)
      match forwardFromE sink (cache.drop st.nextIndex) st.nextIndex
        calls with
      | some (n', calls') => some (⟨n', cache⟩, calls')
      | none => none

/-- Exception-aware flush of `_stop`: each truthy slot costs one sink call,
and a raising call aborts the flush before the stop flag and the gate
release are reached. -/
def flushSliceE (sink : Nat → Bool) :
    List (Option String) → Nat → Option Nat
  | [], calls => some calls
  | slot :: rest, calls =>
    match slot with
    | some p =>
      if p = "" then flushSliceE sink rest calls
      else if sink calls then flushSliceE sink rest (calls + 1)
      else none
    | none => flushSliceE sink rest calls

/-- Exception-aware consumer loop: processes the backlog, and on the
sentinel path runs the flush of `_stop`; only when the flush returns does
the `get` on the gate queue run (one `release` event). An abort anywhere
produces no release event. -/
def processListE (doneName : String) (sink : Nat → Bool) :
    HandlerState → Nat → List String → SessionOutcome × List GateEvent
  | _, _, [] => (.pending, [])
  | st, calls, p :: ps =>
    if basename p = doneName then
      match flushSliceE sink (st.pathCache.drop st.nextIndex) calls with
      | some _ => (.completed, [.release])
      | none => (.aborted, [])
    else
      match processPathE sink st calls p with
      | some (st', calls') => processListE doneName sink st' calls' ps
      | none => (.aborted, [])

/-- One whole session against the gate: the `put` (acquire) at the top of
`_process`, then the consumer loop. -/
def runSessionE (doneName : String) (sink : Nat → Bool) (base : Nat)
    (paths : List String) : SessionOutcome × List GateEvent :=
  let r := processListE doneName sink ⟨base, []⟩ 0 paths
  (r.1, GateEvent.acquire :: r.2)

theorem processListE_shape (dn : String) (sink : Nat → Bool) :
    ∀ (ps : List String) (st : HandlerState) (calls : Nat),
    ((processListE dn sink st calls ps).1 = SessionOutcome.completed ∧
      (processListE dn sink st calls ps).2 = [GateEvent.release]) ∨
    ((processListE dn sink st calls ps).1 ≠ SessionOutcome.completed ∧
      (processListE dn sink st calls ps).2 = [])
  | [], st, calls => by simp [processListE]
  | p :: ps, st, calls => by
    by_cases hd : basename p = dn
    · simp only [processListE, if_pos hd]
      cases hfl : flushSliceE sink (st.pathCache.drop st.nextIndex)
        calls with
      | some c => simp
      | none => simp
    · simp only [processListE, if_neg hd]
      cases hp : processPathE sink st calls p with
      | some pr => exact processListE_shape dn sink ps pr.1 pr.2
      | none => simp

/-- C3 counterexample on the code: a session whose first sink call raises is
aborted locally and ends with zero gate releases, so the slot is not
released on this exit path (the claim requires exactly one release even when
an exception during forwarding aborts the session). -/
theorem gate_release_skipped_on_abort :
    (runSessionE "done" (fun _ => false) 0 ["0.png", "done"]).1 =
      SessionOutcome.aborted ∧
    (runSessionE "done" (fun _ => false) 0
      ["0.png", "done"]).2.count GateEvent.release = 0 := by
  decide

/-- C3 amended: the gate slot is acquired exactly once per session and
released at most once — exactly once when the session completes its sentinel
flush without a raising sink call, and never when an exception during
forwarding or flushing aborts the session (the release is skipped, not
doubled). -/
theorem gate_release_only_on_completion (doneName : String)
    (sink : Nat → Bool) (base : Nat) (paths : List String) :
    (runSessionE doneName sink base paths).2.count GateEvent.acquire = 1 ∧
    (runSessionE doneName sink base paths).2.count GateEvent.release ≤ 1 ∧
    ((runSessionE doneName sink base paths).1 = SessionOutcome.completed →
      (runSessionE doneName sink base paths).2.count GateEvent.release =
        1) ∧
    ((runSessionE doneName sink base paths).1 ≠ SessionOutcome.completed →
      (runSessionE doneName sink base paths).2.count GateEvent.release =
        0) := by
  have hr : runSessionE doneName sink base paths =
      ((processListE doneName sink ⟨base, []⟩ 0 paths).1,
        GateEvent.acquire ::
          (processListE doneName sink ⟨base, []⟩ 0 paths).2) := rfl
  rcases processListE_shape doneName sink paths ⟨base, []⟩ 0 with
    ⟨h1, h2⟩ | ⟨h1, h2⟩ <;>
    rw [hr] <;> simp [h1, h2, List.count_cons] <;> decide

/-- Witness for C3's amended theorem at a concrete input: a session whose
sink calls all return ends completed with exactly one release. -/
theorem gate_release_only_on_completion_witness :
    (runSessionE "done" (fun _ => true) 0 ["0.png", "done"]).2.count
      GateEvent.release = 1 :=
  (gate_release_only_on_completion "done" (fun _ => true) 0
    ["0.png", "done"]).2.2.1 (by decide)

/-! ## Session close and terminal-directory relocation

`WindowMatchingEventHandler.__exit__` (eyes_watcher.py lines 129-137) calls
`EyesWrapper.__exit__`, i.e. `eyes.close()`: the remote close signals a new
baseline by raising `NewTestError`, a mismatch by raising `TestFailedError`,
and a match by returning normally (behaviour of the external applitools
collaborator, as documented in the spec's external-interface contract).
`__exit__` swallows `NewTestError`, and converts `TestFailedError` into a
`DestinationDirectoryException` carrying the failure directory name, which
`watchdir._watch` (lines 175-187) catches to pick the terminal directory
before relocating the staging directory. -/

/-- The three signals a remote session close can produce. -/
inductive CloseResult
  | newBaseline
  | matched
  | mismatched
deriving Repr, DecidableEq

/-- Raised by the remote close: `NewTestError` or `TestFailedError`. -/
inductive EyesError
  | newTest
  | testFailed
deriving Repr, DecidableEq

/-- Model of `EyesWrapper.__exit__` / `eyes.close()`: new baseline raises
`NewTestError`, mismatch raises `TestFailedError`, match returns. -/
def eyesWrapperExit (r : CloseResult) : Except EyesError Unit :=
  match r with
  | .newBaseline => .error .newTest
  | .matched => .ok ()
  | .mismatched => .error .testFailed

/-- Model of `WindowMatchingEventHandler.__exit__` (eyes_watcher.py lines
129-137): `NewTestError` is logged and swallowed; `TestFailedError` is
re-raised as a `DestinationDirectoryException` whose message is the failure
directory name. -/
def windowMatchingExit (failureDirName : String) (r : CloseResult) :
    Except String Unit :=
  match eyesWrapperExit r with
  | .ok () => .ok ()
  | .error .newTest => .ok ()
  | .error .testFailed => .error failureDirName

/-- Terminal directory choice in `watchdir._watch` (lines 175-178): a
`DestinationDirectoryException` names the directory; otherwise the default
(success) directory name is used. -/
def watchDstDirName (defaultDirName failureDirName : String)
    (r : CloseResult) : String :=
  match windowMatchingExit failureDirName r with
  | .error msg => msg
  | .ok () => defaultDirName

/-- A filesystem node: a regular file or a directory with contents. -/
inductive FsNode
  | file (content : Nat)
  | dir (entries : List (String × Nat))
deriving Repr, DecidableEq

/-- Model of `watchdir._make_empty_directory` (lines 106-120): delete
whatever is at the path (recursively for a directory, `os.remove` for a
regular file) and create an empty directory there. -/
def makeEmptyDirectory (n : Option FsNode) : Option FsNode :=
  match n with
  | some (.dir _) => some (.dir [])
  | some (.file _) => some (.dir [])
  | none => some (.dir [])

/-- The second clearing in `watchdir._watch` (lines 183-186): `rmtree` when
the path is a directory, `os.remove` when it otherwise exists, leaving the
path absent. -/
def clearForRename (n : Option FsNode) : Option FsNode :=
  match n with
  | some (.dir _) => none
  | some (.file _) => none
  | none => none

/-- The relevant slice of the filesystem at session end: the node at the
staging (processing) directory path and the node at the chosen terminal
directory path. -/
structure StagingFs where
  staging : Option FsNode
  terminal : Option FsNode
deriving Repr, DecidableEq

/-- Final relocation in `watchdir._watch` (lines 179-187): make the terminal
path an empty directory, clear it again for the rename, then
`os.rename(src, dst)` moves the staging node onto the terminal path
(`os.rename` raises if the staging path is absent). -/
def watchFinalize (fs : StagingFs) : Except Unit StagingFs :=
  let t1 := makeEmptyDirectory fs.terminal
  let t2 := clearForRename t1
  match fs.staging, t2 with
  | none, _ => .error ()
  | some s, none => .ok ⟨none, some s⟩
  | some _, some _ => .error ()

/-- C4: a mismatch from the remote close selects the failure directory name,
a new baseline or a match selects the success (default) directory name; the
chosen terminal path is cleared of any stale node (a directory is
recursively deleted, a stray regular file removed) and the staging contents
are then moved in — so whatever was previously at the terminal path, the
final terminal node is exactly the old staging node. -/
theorem terminal_directory_selection (defaultD failureD : String)
    (fs : StagingFs) (s : FsNode) (hs : fs.staging = some s) :
    watchDstDirName defaultD failureD .mismatched = failureD ∧
    watchDstDirName defaultD failureD .newBaseline = defaultD ∧
    watchDstDirName defaultD failureD .matched = defaultD ∧
    (∀ n, makeEmptyDirectory n = some (.dir [])) ∧
    watchFinalize fs = .ok ⟨none, some s⟩ := by
  refine ⟨rfl, rfl, rfl, fun n => ?_, ?_⟩
  · cases n with
    | some x => cases x <;> rfl
    | none => rfl
  · cases fs with
    | mk staging terminal =>
      simp only at hs
      subst hs
      cases terminal with
      | some x => cases x <;> rfl
      | none => rfl

/-- Witness for C4 at a concrete input: a staging directory with one file
and a stale regular file at the terminal path. -/
theorem terminal_directory_selection_witness :
    watchDstDirName "DONE" "FAILED" .mismatched = "FAILED" ∧
    watchFinalize ⟨some (.dir [("0.png", 7)]), some (.file 3)⟩ =
      .ok ⟨none, some (.dir [("0.png", 7)])⟩ :=
  ⟨(terminal_directory_selection "DONE" "FAILED"
      ⟨some (.dir [("0.png", 7)]), some (.file 3)⟩ (.dir [("0.png", 7)])
      rfl).1,
   (terminal_directory_selection "DONE" "FAILED"
      ⟨some (.dir [("0.png", 7)]), some (.file 3)⟩ (.dir [("0.png", 7)])
      rfl).2.2.2.2⟩

/-! ## The file mover (`watchdir._mv_f`)

Single-actor model: paths are component lists, the filesystem is a finite
association list of regular files (path, content) plus a set of directories.
Without a concurrent actor, `_mv_f`'s removal loop runs its body at most
once per existing node and the two existence-polling loops are no-ops, so
the model below is the loop-free behaviour of lines 25-50 of watchdir.py. -/

/-- A path for the file-mover model, as a list of components. -/
abbrev FPath := List String

/-- Errors surfaced by the modelled filesystem calls. -/
inductive MvErr
  | eisdir
  | enoent
deriving Repr, DecidableEq

/-- Files (with content identifiers) and directories of the model. -/
structure MvFs where
  files : List (FPath × Nat)
  dirs : List FPath
deriving Repr, DecidableEq

/-- The destination-removal loop of `_mv_f` (watchdir.py lines 35-40):
while the destination exists, `os.remove` it; removing a regular file
succeeds (and without races the loop then exits), removing a directory
raises a non-`ENOENT` error (`EISDIR`) which propagates. -/
def removeDstLoop (fs : MvFs) (dst : FPath) : Except MvErr MvFs :=
  if (fs.files.lookup dst).isSome then
    let fs' : MvFs := ⟨fs.files.filter (fun e => !(e.1 == dst)), fs.dirs⟩
    if dst ∈ fs'.dirs then .error .eisdir else .ok fs'
  else if dst ∈ fs.dirs then .error .eisdir
  else .ok fs

/-- The nonempty prefixes of a component path, shortest first. -/
def prefixesNE : FPath → List FPath
  | [] => []
  | a :: rest => [a] :: (prefixesNE rest).map (a :: ·)

/-- Model of `dir_util.mkpath` on the destination's parent (watchdir.py
line 43): create the parent directory and every missing ancestor. -/
def mkpath (fs : MvFs) (d : FPath) : MvFs :=
  ⟨fs.files, fs.dirs ++ (prefixesNE d).filter (fun q => decide (q ∉ fs.dirs))⟩

/-- Model of `os.rename(src, dst)` on regular files: `ENOENT` when the
source does not exist, otherwise the source entry is moved onto the
destination path, replacing any destination entry. -/
def renameStep (fs : MvFs) (src dst : FPath) : Except MvErr MvFs :=
  match fs.files.lookup src with
  | some c =>
    .ok ⟨(fs.files.filter
        (fun e => !(e.1 == src) && !(e.1 == dst))) ++ [(dst, c)], fs.dirs⟩
  | none => .error .enoent

/-- Model of `watchdir._mv_f` (lines 25-50): remove an existing destination
(re-raising non-`ENOENT` errors), create the destination's parent
directories, then try `os.rename(src, dst)`, swallowing only `ENOENT`; the
two existence-polling sleeps are no-ops without a concurrent actor. -/
def mvF (fs : MvFs) (src dst : FPath) : Except MvErr MvFs :=
  match removeDstLoop fs dst with
  | .error e => .error e
  | .ok fs1 =>
    let fs2 := mkpath fs1 dst.dropLast
    match renameStep fs2 src dst with
    | .ok fs3 => .ok fs3
    | .error .enoent => .ok fs2
    | .error .eisdir => .error .eisdir

theorem lookup_filter_out (l : List (FPath × Nat)) (q : FPath)
    (f : FPath × Nat → Bool) (hf : ∀ e, f e = true → ¬e.1 = q) :
    (l.filter f).lookup q = none := by
  induction l with
  | nil => rfl
  | cons e l ih =>
    by_cases hfe : f e = true
    · rw [List.filter_cons_of_pos hfe]
      obtain ⟨k, v⟩ := e
      have hne : (q == k) = false := by
        rw [beq_eq_false_iff_ne]
        intro h
        exact hf ⟨k, v⟩ hfe (by simpa using h.symm)
      rw [List.lookup_cons, hne]
      exact ih
    · rw [List.filter_cons_of_neg hfe]
      exact ih

theorem lookup_filter_keep (l : List (FPath × Nat)) (p : FPath)
    (f : FPath × Nat → Bool) (hf : ∀ e, e.1 = p → f e = true) :
    (l.filter f).lookup p = l.lookup p := by
  induction l with
  | nil => rfl
  | cons e l ih =>
    obtain ⟨k, v⟩ := e
    by_cases hkp : k = p
    · have hfe : f ⟨k, v⟩ = true := hf ⟨k, v⟩ hkp
      have hbeq : (p == k) = true := beq_iff_eq.mpr hkp.symm
      rw [List.filter_cons_of_pos hfe, List.lookup_cons, List.lookup_cons,
        hbeq]
    · have hbeq : (p == k) = false := beq_eq_false_iff_ne.mpr
        (fun h => hkp h.symm)
      by_cases hfe : f ⟨k, v⟩ = true
      · rw [List.filter_cons_of_pos hfe, List.lookup_cons,
          List.lookup_cons, hbeq]
        exact ih
      · rw [List.filter_cons_of_neg hfe, List.lookup_cons, hbeq]
        exact ih

theorem mkpath_dirs (fs : MvFs) (d : FPath) :
    ∀ q ∈ prefixesNE d, q ∈ (mkpath fs d).dirs := by
  intro q hq
  simp only [mkpath, List.mem_append, List.mem_filter]
  by_cases hd : q ∈ fs.dirs
  · exact Or.inl hd
  · exact Or.inr ⟨hq, by simpa using hd⟩
theorem removeDstLoop_file (fs : MvFs) (dst : FPath) (c : Nat)
    (h : fs.files.lookup dst = some c) (hd : dst ∉ fs.dirs) :
    removeDstLoop fs dst =
      .ok ⟨fs.files.filter (fun e => !(e.1 == dst)), fs.dirs⟩ := by
  unfold removeDstLoop
  rw [h]
  simp [hd]

theorem removeDstLoop_absent (fs : MvFs) (dst : FPath)
    (h : fs.files.lookup dst = none) (hd : dst ∉ fs.dirs) :
    removeDstLoop fs dst = .ok fs := by
  unfold removeDstLoop
  rw [h]
  simp [hd]

theorem removeDstLoop_dir (fs : MvFs) (dst : FPath)
    (h : fs.files.lookup dst = none) (hd : dst ∈ fs.dirs) :
    removeDstLoop fs dst = .error .eisdir := by
  unfold removeDstLoop
  rw [h]
  simp [hd]

theorem renameStep_found (fs : MvFs) (src dst : FPath) (c : Nat)
    (h : fs.files.lookup src = some c) :
    renameStep fs src dst =
      .ok ⟨(fs.files.filter
        (fun e => !(e.1 == src) && !(e.1 == dst))) ++ [(dst, c)],
        fs.dirs⟩ := by
  unfold renameStep
  rw [h]

theorem renameStep_missing (fs : MvFs) (src dst : FPath)
    (h : fs.files.lookup src = none) :
    renameStep fs src dst = .error .enoent := by
  unfold renameStep
  rw [h]

theorem mvF_eq_ok (fs fs1 : MvFs) (src dst : FPath)
    (h1 : removeDstLoop fs dst = .ok fs1) :
    mvF fs src dst =
      match renameStep (mkpath fs1 dst.dropLast) src dst with
      | .ok fs3 => .ok fs3
      | .error .enoent => .ok (mkpath fs1 dst.dropLast)
      | .error .eisdir => .error .eisdir := by
  unfold mvF
  rw [h1]

theorem mvF_eq_error (fs : MvFs) (src dst : FPath) (e : MvErr)
    (h1 : removeDstLoop fs dst = .error e) : mvF fs src dst = .error e := by
  unfold mvF
  rw [h1]

/-- C7 counterexample on the code: with both the source and the destination
absent, `_mv_f` swallows the rename's `ENOENT` and returns without error,
leaving no file at the destination — the claim requires a filesystem error
to surface when the source is gone and the destination does not reflect the
move. -/
theorem mv_missing_source_no_error :
    mvF ⟨[], []⟩ ["a", "s.png"] ["b", "d.png"] =
      Except.ok ⟨[], [["b"]]⟩ := by
  rw [mvF_eq_ok ⟨[], []⟩ ⟨[], []⟩ ["a", "s.png"] ["b", "d.png"]
      (removeDstLoop_absent ⟨[], []⟩ ["b", "d.png"] rfl (by simp)),
    renameStep_missing (mkpath ⟨[], []⟩ (["b", "d.png"].dropLast))
      ["a", "s.png"] ["b", "d.png"] rfl]
  rfl

/-- C7 amended: `_mv_f` creates the destination's parent directories as
needed and removes a pre-existing destination file before renaming the
source onto it; but when the source is missing, the rename's `ENOENT` is
swallowed unconditionally and `_mv_f` returns without error whether or not
the destination reflects the move; only non-`ENOENT` errors surface, e.g.
`EISDIR` when the destination is a directory. -/
theorem mv_contract_amended :
    (∀ (fs : MvFs) (src dst : FPath) (fs' : MvFs),
      mvF fs src dst = .ok fs' →
      ∀ q ∈ prefixesNE dst.dropLast, q ∈ fs'.dirs) ∧
    (∀ (fs : MvFs) (src dst : FPath) (c c' : Nat),
      fs.files.lookup src = some c → fs.files.lookup dst = some c' →
      dst ∉ fs.dirs → src ≠ dst →
      ∃ fs', mvF fs src dst = .ok fs' ∧ fs'.files.lookup dst = some c ∧
        fs'.files.lookup src = none) ∧
    (∀ (fs : MvFs) (src dst : FPath),
      fs.files.lookup src = none → dst ∉ fs.dirs →
      ∃ fs', mvF fs src dst = .ok fs') ∧
    (∀ (fs : MvFs) (src dst : FPath),
      fs.files.lookup dst = none → dst ∈ fs.dirs →
      mvF fs src dst = .error .eisdir) := by
  refine ⟨?_, ?_, ?_, ?_⟩
  · intro fs src dst fs' hok q hq
    unfold mvF at hok
    cases hrm : removeDstLoop fs dst with
    | error e => rw [hrm] at hok; exact Except.noConfusion hok
    | ok fs1 =>
      rw [hrm] at hok
      simp only at hok
      have hdirs2 : q ∈ (mkpath fs1 dst.dropLast).dirs :=
        mkpath_dirs fs1 dst.dropLast q hq
      cases hrn : renameStep (mkpath fs1 dst.dropLast) src dst with
      | ok fs3 =>
        rw [hrn] at hok
        obtain rfl : fs3 = fs' := Except.ok.inj hok
        have hd3 : fs3.dirs = (mkpath fs1 dst.dropLast).dirs := by
          unfold renameStep at hrn
          cases hl : (mkpath fs1 dst.dropLast).files.lookup src with
          | some c =>
            rw [hl] at hrn
            obtain rfl := Except.ok.inj hrn
            rfl
          | none => rw [hl] at hrn; exact Except.noConfusion hrn
        rw [hd3]
        exact hdirs2
      | error e =>
        rw [hrn] at hok
        cases e with
        | enoent =>
          obtain rfl : mkpath fs1 dst.dropLast = fs' := Except.ok.inj hok
          exact hdirs2
        | eisdir => exact Except.noConfusion hok
  · intro fs src dst c c' hsrc hdst hdir hne
    have hfsrc : ∀ e : FPath × Nat, e.1 = src →
        (fun e : FPath × Nat => !(e.1 == dst)) e = true := by
      intro e he
      show (!(e.1 == dst)) = true
      rw [he, beq_eq_false_iff_ne.mpr hne]
      rfl
    have hkeep : ((fs.files.filter
        (fun e => !(e.1 == dst))).lookup src) = some c :=
      (lookup_filter_keep fs.files src _ hfsrc).trans hsrc
    have hrm := removeDstLoop_file fs dst c' hdst hdir
    have hlkB : (mkpath
        (⟨fs.files.filter (fun e => !(e.1 == dst)), fs.dirs⟩ : MvFs)
        dst.dropLast).files.lookup src = some c := hkeep
    have hrn := renameStep_found (mkpath
      (⟨fs.files.filter (fun e => !(e.1 == dst)), fs.dirs⟩ : MvFs)
      dst.dropLast) src dst c hlkB
    have hfout2 : ∀ e : FPath × Nat,
        (fun e : FPath × Nat => !(e.1 == src) && !(e.1 == dst)) e = true →
        ¬e.1 = dst := by
      intro e he
      simp only [Bool.and_eq_true] at he
      cases hbe : (e.1 == dst) with
      | false => exact beq_eq_false_iff_ne.mp hbe
      | true => rw [hbe] at he; simp at he
    have hfout1 : ∀ e : FPath × Nat,
        (fun e : FPath × Nat => !(e.1 == src) && !(e.1 == dst)) e = true →
        ¬e.1 = src := by
      intro e he
      simp only [Bool.and_eq_true] at he
      cases hbe : (e.1 == src) with
      | false => exact beq_eq_false_iff_ne.mp hbe
      | true => rw [hbe] at he; simp at he
    refine ⟨⟨((mkpath
        (⟨fs.files.filter (fun e => !(e.1 == dst)), fs.dirs⟩ : MvFs)
        dst.dropLast).files.filter
        (fun e => !(e.1 == src) && !(e.1 == dst))) ++ [(dst, c)],
        (mkpath
          (⟨fs.files.filter (fun e => !(e.1 == dst)), fs.dirs⟩ : MvFs)
          dst.dropLast).dirs⟩, ?_, ?_, ?_⟩
    · rw [mvF_eq_ok fs
        (⟨fs.files.filter (fun e => !(e.1 == dst)), fs.dirs⟩ : MvFs)
        src dst hrm, hrn]
    · show (((mkpath
          (⟨fs.files.filter (fun e => !(e.1 == dst)), fs.dirs⟩ : MvFs)
          dst.dropLast).files.filter
          (fun e => !(e.1 == src) && !(e.1 == dst))) ++
          [(dst, c)]).lookup dst = some c
      rw [List.lookup_append, lookup_filter_out _ _ _ hfout2]
      simp [List.lookup_cons]
    · show (((mkpath
          (⟨fs.files.filter (fun e => !(e.1 == dst)), fs.dirs⟩ : MvFs)
          dst.dropLast).files.filter
          (fun e => !(e.1 == src) && !(e.1 == dst))) ++
          [(dst, c)]).lookup src = none
      rw [List.lookup_append, lookup_filter_out _ _ _ hfout1,
        List.lookup_cons]
      rw [show (src == dst) = false from beq_eq_false_iff_ne.mpr hne]
      rfl
  · intro fs src dst hsrc hdir
    cases hdf : fs.files.lookup dst with
    | some c' =>
      have hrm := removeDstLoop_file fs dst c' hdf hdir
      have hmiss : ((fs.files.filter
          (fun e => !(e.1 == dst))).lookup src) = none := by
        by_cases hsd : src = dst
        · subst hsd
          apply lookup_filter_out
          intro e he
          cases hbe : (e.1 == src) with
          | false => exact beq_eq_false_iff_ne.mp hbe
          | true => rw [hbe] at he; simp at he
        · have hfsrc : ∀ e : FPath × Nat, e.1 = src →
              (fun e : FPath × Nat => !(e.1 == dst)) e = true := by
            intro e he
            show (!(e.1 == dst)) = true
            rw [he, beq_eq_false_iff_ne.mpr hsd]
            rfl
          exact (lookup_filter_keep fs.files src _ hfsrc).trans hsrc
      have hlkB : (mkpath
          (⟨fs.files.filter (fun e => !(e.1 == dst)), fs.dirs⟩ : MvFs)
          dst.dropLast).files.lookup src = none := hmiss
      have hmv : mvF fs src dst = .ok (mkpath
          (⟨fs.files.filter (fun e => !(e.1 == dst)), fs.dirs⟩ : MvFs)
          dst.dropLast) := by
        rw [mvF_eq_ok fs
          (⟨fs.files.filter (fun e => !(e.1 == dst)), fs.dirs⟩ : MvFs)
          src dst hrm,
          renameStep_missing (mkpath
            (⟨fs.files.filter (fun e => !(e.1 == dst)), fs.dirs⟩ : MvFs)
            dst.dropLast) src dst hlkB]
      exact ⟨_, hmv⟩
    | none =>
      have hrm := removeDstLoop_absent fs dst hdf hdir
      have hlkB : (mkpath fs dst.dropLast).files.lookup src = none := hsrc
      have hmv : mvF fs src dst = .ok (mkpath fs dst.dropLast) := by
        rw [mvF_eq_ok fs fs src dst hrm,
          renameStep_missing (mkpath fs dst.dropLast) src dst hlkB]
      exact ⟨_, hmv⟩
  · intro fs src dst hdst hdir
    exact mvF_eq_error fs src dst .eisdir (removeDstLoop_dir fs dst hdst hdir)

/-- Witness for C7's amended theorem at concrete inputs: moving a file onto
an existing destination file replaces it, and a missing source with an
absent destination yields no error. -/
theorem mv_contract_amended_witness :
    (∃ fs', mvF ⟨[(["a"], 1), (["b"], 2)], []⟩ ["a"] ["b"] = .ok fs' ∧
      fs'.files.lookup ["b"] = some 1 ∧ fs'.files.lookup ["a"] = none) ∧
    (∃ fs', mvF ⟨[], []⟩ ["a"] ["b"] = .ok fs') :=
  ⟨mv_contract_amended.2.1 ⟨[(["a"], 1), (["b"], 2)], []⟩ ["a"] ["b"] 1 2
      rfl rfl (by simp) (by simp),
   mv_contract_amended.2.2.1 ⟨[], []⟩ ["a"] ["b"] rfl (by simp)⟩

end ImageFeeder
